import Mathlib

/-!
Verification of the Hillary-or-Trump naive Bayes tweet classifier
(`naive_bayes_tweet_classifier-checkpoint.ipynb`).

The notebook's Python 2 code is shallowly embedded below.  Floating point
values are modelled by `ℚ` (every count manipulated by the program is a small
integer, on which float arithmetic is exact; the final divisions are taken
exactly).  `math.log` is modelled by an abstract function `lg : ℚ → ℚ`; the
only property of `log` any theorem uses is strict monotonicity on positives,
which is taken as a hypothesis where needed.  Python dictionaries are modelled
as functions into `Option ℚ`; a lookup that may raise `KeyError`, a division
that may raise `ZeroDivisionError` and a `log` call that may raise a math
domain error are modelled in the `Except PyError` monad.
-/

/-- The two classes, exactly the values of the notebook's `LABEL_MAP`. -/
inductive Candidate
  | trump
  | hillary
deriving DecidableEq, Repr

/-- Runtime failures the notebook's code can raise (`KeyError` from a dict
lookup, `ZeroDivisionError` from `x / 0.0`, `ValueError: math domain error`
from `log` of a non-positive number).  `emptyTrainingSetError` is the error
kind named by the specification; the code never defines nor raises it and it
is included only so that statements about it can be written down. -/
inductive PyError
  | keyError
  | zeroDivisionError
  | mathDomainError
  | emptyTrainingSetError
deriving DecidableEq, Repr

deriving instance DecidableEq for Except

/-! ## Tokenizer

`remove_punctuation` deletes every character of Python 2's
`string.punctuation` from the input; `tokenize` then lowercases, strips
surrounding whitespace, splits on runs of non-word characters (`re.split
"\\W+"`, where a word character is `[a-zA-Z0-9_]` for a Python 2 `str`) and
drops empty tokens. -/

/-- The 32 characters of Python 2's `string.punctuation`. -/
def pythonPunctuationChars : List Char :=
  "!\x22#$%&\x27()*+,-./:;<=>?@[\x5c]^_\x60\x7b|\x7d~".data

def isPunct (c : Char) : Bool :=
  pythonPunctuationChars.contains c

/-- `remove_punctuation`: `input_str.translate(table, string.punctuation)`
deletes every punctuation character. -/
def remove_punctuation (l : List Char) : List Char :=
  l.filter fun c => ! isPunct c

/-- The uppercase-to-lowercase table of Python 2 `str.lower()` (ASCII). -/
def lowerMap : List (Char × Char) :=
  [('A', 'a'), ('B', 'b'), ('C', 'c'), ('D', 'd'), ('E', 'e'), ('F', 'f'),
   ('G', 'g'), ('H', 'h'), ('I', 'i'), ('J', 'j'), ('K', 'k'), ('L', 'l'),
   ('M', 'm'), ('N', 'n'), ('O', 'o'), ('P', 'p'), ('Q', 'q'), ('R', 'r'),
   ('S', 's'), ('T', 't'), ('U', 'u'), ('V', 'v'), ('W', 'w'), ('X', 'x'),
   ('Y', 'y'), ('Z', 'z')]

/-- Python 2 `str.lower()` on one character. -/
def pyToLower (c : Char) : Char :=
  match lowerMap.find? (fun p => p.1 == c) with
  | some p => p.2
  | none => c

/-- The whitespace characters stripped by Python 2 `str.strip()`. -/
def isPySpace (c : Char) : Bool :=
  c == ' ' || c == '\t' || c == '\n' || c == '\x0b' || c == '\x0c' ||
    c == '\r'

/-- Python 2 `str.strip()`. -/
def pyStrip (l : List Char) : List Char :=
  ((l.dropWhile isPySpace).reverse.dropWhile isPySpace).reverse

/-- A word character of the regex `\\W` complement for a Python 2 `str`:
`[a-zA-Z0-9_]`. -/
def isWordChar (c : Char) : Bool :=
  c.isAlphanum || c == '_'

/-- `re.split("\\W+", line)` followed by removal of empty strings returns
exactly the maximal runs of word characters, in order.  `acc` holds the
(reversed) run currently being read. -/
def splitWordsAux : List Char → List Char → List (List Char)
  | [], acc => if acc.isEmpty then [] else [acc.reverse]
  | c :: cs, acc =>
    if isWordChar c then
      splitWordsAux cs (c :: acc)
    else if acc.isEmpty then
      splitWordsAux cs []
    else
      acc.reverse :: splitWordsAux cs []

/-- The tokenizer on character lists: remove punctuation, lowercase, strip,
split on runs of non-word characters. -/
def tokenizeChars (l : List Char) : List (List Char) :=
  splitWordsAux (pyStrip ((remove_punctuation l).map pyToLower)) []

/-- The notebook's `tokenize`, on `String`s.  The final `filter` mirrors the
list comprehension `[token for token in re.split(...) if token != '']`. -/
def tokenize (line : String) : List String :=
  ((tokenizeChars line.data).map (fun cs => String.mk cs)).filter
    (fun t => t != "")

/-- Joining a list of token character lists with single spaces (the "join"
of C9's re-tokenization property; not part of the notebook itself). -/
def joinSpChars : List (List Char) → List Char
  | [] => []
  | [t] => t
  | t :: t2 :: ts => t ++ ' ' :: joinSpChars (t2 :: ts)

/-- Joining a list of tokens with single spaces, on `String`s. -/
def joinSpace (ts : List String) : String :=
  String.mk (joinSpChars (ts.map String.data))

/-! ## Training

The notebook keeps three global dictionaries: `vocabulary` (token → global
count), `word_counts_per_candidate` (candidate → token → smoothed count) and
`total_tweet_count` (candidate → number of tweets).  `runTraining` executes
the training loop of cell 7; on a `KeyError` from `LABEL_MAP` it returns the
state mutated so far together with the error, exactly as the Python
interpreter leaves the global dictionaries when the loop raises. -/

/-- The notebook's mutable training state (the three global dictionaries). -/
structure TrainState where
  vocabulary : String → Option ℚ
  word_counts_per_candidate : Candidate → String → Option ℚ
  total_tweet_count : Candidate → ℚ

/-- `SMOOTHING = 1.0`. -/
def SMOOTHING : ℚ := 1

/-- `LABEL_MAP = {'0\n': 'hillary', '1\n': 'trump'}`; any other key raises
`KeyError`, modelled by `none`. -/
def LABEL_MAP (label : String) : Option Candidate :=
  if label = "0\n" then some .hillary
  else if label = "1\n" then some .trump
  else none

/-- The state before any training ran: all three dictionaries empty. -/
def initState : TrainState where
  vocabulary := fun _ => none
  word_counts_per_candidate := fun _ _ => none
  total_tweet_count := fun _ => 0

/-- The body of the inner `for word in tokens` loop: first-sight smoothing
initialization (`vocabulary[word] = 2 * SMOOTHING` and
`word_counts_per_candidate[c][word] = SMOOTHING` for **both** candidates),
then the two unconditional increments. -/
def processWord (cand : Candidate) (s : TrainState) (word : String) :
    TrainState :=
  let vocab1 : String → Option ℚ := fun t =>
    if (s.vocabulary word).isSome then s.vocabulary t
    else if t = word then some (2 * SMOOTHING) else s.vocabulary t
  let counts1 : Candidate → String → Option ℚ := fun c t =>
    if (s.vocabulary word).isSome then s.word_counts_per_candidate c t
    else if t = word then some SMOOTHING
    else s.word_counts_per_candidate c t
  { vocabulary := fun t =>
      if t = word then (vocab1 t).map (· + 1) else vocab1 t
    word_counts_per_candidate := fun c t =>
      if c = cand ∧ t = word then (counts1 c t).map (· + 1)
      else counts1 c t
    total_tweet_count := s.total_tweet_count }

/-- One iteration of the outer training loop for a tweet whose label mapped
to `cand`: increment `total_tweet_count[cand]`, then process every token. -/
def processTweet (cand : Candidate) (tweet : String) (s : TrainState) :
    TrainState :=
  (tokenize tweet).foldl (processWord cand)
    { s with
      total_tweet_count := fun c =>
        if c = cand then s.total_tweet_count c + 1
        else s.total_tweet_count c }

/-- The training loop over the zipped `(tweet, label)` pairs.  A label
outside `LABEL_MAP` raises `KeyError` before any mutation for that pair;
the state accumulated so far is retained (Python mutates globals in place). -/
def runTraining : List (String × String) → TrainState →
    TrainState × Option PyError
  | [], s => (s, none)
  | (tweet, label) :: rest, s =>
    match LABEL_MAP label with
    | none => (s, some .keyError)
    | some cand => runTraining rest (processTweet cand tweet s)

/-- Cell 18: `word_probabilities_per_candidate[c][word] =
count / (total_tweet_count[c] + 2)`, for exactly the keys of
`word_counts_per_candidate[c]`. -/
def word_probabilities_per_candidate (s : TrainState) (c : Candidate)
    (t : String) : Option ℚ :=
  (s.word_counts_per_candidate c t).map
    (fun count => count / (s.total_tweet_count c + 2))

/-! ## Classification

`math.log` is an abstract `lg : ℚ → ℚ` parameter.  Fallible Python
operations are made explicit: a dict lookup raises `KeyError` on a missing
key, `x / y` raises `ZeroDivisionError` when `y = 0`, and `log x` raises a
math domain error when `x ≤ 0`. -/

def dictLookup (d : String → Option ℚ) (t : String) : Except PyError ℚ :=
  match d t with
  | some v => Except.ok v
  | none => Except.error .keyError

def logChecked (lg : ℚ → ℚ) (x : ℚ) : Except PyError ℚ :=
  if x ≤ 0 then Except.error .mathDomainError else Except.ok (lg x)

def divChecked (a b : ℚ) : Except PyError ℚ :=
  if b = 0 then Except.error .zeroDivisionError else Except.ok (a / b)

/-- Cell 23's prior computation, in program order:
`prior_trump = total_tweet_count['trump'] / sum(total_tweet_count.values())`,
likewise for hillary, then `log` of each. -/
def computeLogPriors (lg : ℚ → ℚ) (s : TrainState) :
    Except PyError (ℚ × ℚ) := do
  let prior_trump ← divChecked (s.total_tweet_count .trump)
    (s.total_tweet_count .trump + s.total_tweet_count .hillary)
  let prior_hillary ← divChecked (s.total_tweet_count .hillary)
    (s.total_tweet_count .trump + s.total_tweet_count .hillary)
  let log_prior_trump ← logChecked lg prior_trump
  let log_prior_hillary ← logChecked lg prior_hillary
  Except.ok (log_prior_trump, log_prior_hillary)

/-- One iteration of the `for token in test_tokens` loop of cell 23: a token
present in `vocabulary` contributes `log` of each candidate's word
probability to that candidate's running sum; any other token is skipped
(`pass`).  The pair is `(trump sum, hillary sum)`. -/
def sumStep (lg : ℚ → ℚ) (s : TrainState) (acc : ℚ × ℚ) (token : String) :
    Except PyError (ℚ × ℚ) :=
  if (s.vocabulary token).isSome then do
    let p_word_given_trump ←
      dictLookup (word_probabilities_per_candidate s .trump) token
    let log_p_word_given_trump ← logChecked lg p_word_given_trump
    let p_word_given_hillary ←
      dictLookup (word_probabilities_per_candidate s .hillary) token
    let log_p_word_given_hillary ← logChecked lg p_word_given_hillary
    Except.ok (acc.1 + log_p_word_given_trump,
               acc.2 + log_p_word_given_hillary)
  else Except.ok acc

/-- The whole token loop of cell 23, starting from the two zero sums. -/
def tweetLogSums (lg : ℚ → ℚ) (s : TrainState) (tokens : List String) :
    Except PyError (ℚ × ℚ) :=
  tokens.foldlM (sumStep lg s) ((0 : ℚ), (0 : ℚ))

/-- The final comparison of cell 23: each posterior is its log-score
numerator minus the shared "denominator" (the sum of both numerators), and
trump is predicted when `p_trump_given_tweet >= p_hillary_given_tweet`. -/
def selectCandidate (log_score_trump log_score_hillary : ℚ) : Candidate :=
  let p_hillary_given_tweet_denominator :=
    log_score_hillary + log_score_trump
  let p_hillary_given_tweet :=
    log_score_hillary - p_hillary_given_tweet_denominator
  let p_trump_given_tweet_denominator :=
    log_score_hillary + log_score_trump
  let p_trump_given_tweet :=
    log_score_trump - p_trump_given_tweet_denominator
  if p_hillary_given_tweet ≤ p_trump_given_tweet then .trump else .hillary

/-- Classification of one tweet, given the trained state and the
precomputed pair `(log_prior_trump, log_prior_hillary)`. -/
def classifyTweet (lg : ℚ → ℚ) (s : TrainState) (lp : ℚ × ℚ)
    (tweet : String) : Except PyError Candidate := do
  let sums ← tweetLogSums lg s (tokenize tweet)
  Except.ok (selectCandidate (lp.1 + sums.1) (lp.2 + sums.2))

/-- The specification's selection rule, written from its words: the argmax
over classes of the log-score numerators themselves (trump on ties, matching
the code's `>=`). -/
def argmaxCandidate (log_score_trump log_score_hillary : ℚ) : Candidate :=
  if log_score_hillary ≤ log_score_trump then .trump else .hillary

/-- The specification's `numClasses` (two candidates). -/
def numClasses : ℚ := 2

/-- Invariant of the training loop: tweet counts are nonnegative, and every
token of the vocabulary has, for every candidate, a word count of at least
`SMOOTHING`. -/
def TrainInv (s : TrainState) : Prop :=
  (∀ c, 0 ≤ s.total_tweet_count c) ∧
  (∀ t, (s.vocabulary t).isSome → ∀ c, ∃ q,
    s.word_counts_per_candidate c t = some q ∧ SMOOTHING ≤ q)

/-- A small hand-written state used by witnesses: vocabulary `{"a"}`, both
word counts 2, two trump tweets and one hillary tweet. -/
def demoState : TrainState where
  vocabulary := fun t => if t = "a" then some 4 else none
  word_counts_per_candidate := fun _ t => if t = "a" then some 2 else none
  total_tweet_count := fun c => if c = .trump then 2 else 1


/-! ## Selection: comparing shifted posteriors equals comparing numerators -/

/-- The comparison the code performs (each numerator minus the shared
"denominator") selects exactly the class the raw numerators select. -/
theorem selectCandidate_eq_argmax (a b : ℚ) :
    selectCandidate a b = argmaxCandidate a b := by
  simp only [selectCandidate, argmaxCandidate, sub_le_sub_iff_right]

/-- `classifyTweet` reduced on a successful token-sum computation. -/
theorem classifyTweet_eq_of_sums (lg : ℚ → ℚ) (s : TrainState) (lp : ℚ × ℚ)
    (tweet : String) (sums : ℚ × ℚ)
    (hs : tweetLogSums lg s (tokenize tweet) = Except.ok sums) :
    classifyTweet lg s lp tweet =
      Except.ok (selectCandidate (lp.1 + sums.1) (lp.2 + sums.2)) := by
  simp only [classifyTweet, bind, Except.bind, hs]

/-- C1: for every trained model and input text, the class the code selects by
comparing `p_trump_given_tweet` with `p_hillary_given_tweet` — each log-score
numerator minus the same shared "denominator" (the sum of both numerators) —
is the argmax of the log scores `logPrior + Σ log WordProbability` over the
in-vocabulary tokens: subtracting a common value from both sides preserves
the order, so the selected class's log score is maximal. -/
theorem claim1_select_is_argmax (lg : ℚ → ℚ) (s : TrainState) (lp : ℚ × ℚ)
    (tweet : String) (sums : ℚ × ℚ) (c : Candidate)
    (hs : tweetLogSums lg s (tokenize tweet) = Except.ok sums)
    (hc : classifyTweet lg s lp tweet = Except.ok c) :
    c = argmaxCandidate (lp.1 + sums.1) (lp.2 + sums.2) ∧
    (c = Candidate.trump → lp.2 + sums.2 ≤ lp.1 + sums.1) ∧
    (c = Candidate.hillary → lp.1 + sums.1 ≤ lp.2 + sums.2) := by
  rw [classifyTweet_eq_of_sums lg s lp tweet sums hs,
    selectCandidate_eq_argmax] at hc
  obtain rfl : argmaxCandidate (lp.1 + sums.1) (lp.2 + sums.2) = c :=
    Except.ok.inj hc
  unfold argmaxCandidate
  split
  case isTrue h =>
    exact ⟨rfl, fun _ => h, fun hab => Candidate.noConfusion hab⟩
  case isFalse h =>
    exact ⟨rfl, fun hab => Candidate.noConfusion hab, fun _ => le_of_not_le h⟩

/-- Witness for C1 at a concrete input. -/
theorem claim1_witness :
    Candidate.trump = argmaxCandidate ((0 : ℚ) + 0) ((0 : ℚ) + 0) ∧
    (Candidate.trump = Candidate.trump → (0 : ℚ) + 0 ≤ (0 : ℚ) + 0) ∧
    (Candidate.trump = Candidate.hillary → (0 : ℚ) + 0 ≤ (0 : ℚ) + 0) :=
  claim1_select_is_argmax (fun q => q) initState (0, 0) "" (0, 0)
    Candidate.trump (of_decide_eq_true (by with_unfolding_all rfl))
    (of_decide_eq_true (by with_unfolding_all rfl))

/-- C8: ties are broken deterministically by the hard-coded class order of
the comparison `p_trump_given_tweet >= p_hillary_given_tweet`: any two
inputs whose log scores tie exactly are classified identically, namely as
the first class of the fixed ordering (trump). -/
theorem claim8_tie_break_deterministic (lg : ℚ → ℚ) (s : TrainState)
    (lp : ℚ × ℚ) (t1 t2 : String) (u v : ℚ × ℚ)
    (h1 : tweetLogSums lg s (tokenize t1) = Except.ok u)
    (h2 : tweetLogSums lg s (tokenize t2) = Except.ok v)
    (tie1 : lp.1 + u.1 = lp.2 + u.2)
    (tie2 : lp.1 + v.1 = lp.2 + v.2) :
    classifyTweet lg s lp t1 = classifyTweet lg s lp t2 ∧
    classifyTweet lg s lp t1 = Except.ok Candidate.trump := by
  rw [classifyTweet_eq_of_sums lg s lp t1 u h1,
    classifyTweet_eq_of_sums lg s lp t2 v h2,
    selectCandidate_eq_argmax, selectCandidate_eq_argmax, ← tie1, ← tie2]
  constructor
  · simp [argmaxCandidate]
  · simp [argmaxCandidate]

/-- Witness for C8 at a concrete input. -/
theorem claim8_witness :
    classifyTweet (fun q => q) initState (0, 0) "" =
      classifyTweet (fun q => q) initState (0, 0) " " ∧
    classifyTweet (fun q => q) initState (0, 0) "" =
      Except.ok Candidate.trump :=
  claim8_tie_break_deterministic (fun q => q) initState (0, 0) "" " "
    (0, 0) (0, 0) (of_decide_eq_true (by with_unfolding_all rfl))
    (of_decide_eq_true (by with_unfolding_all rfl))
    (of_decide_eq_true (by with_unfolding_all rfl))
    (of_decide_eq_true (by with_unfolding_all rfl))

/-! ## Tokenizer example behaviour (C3) -/

/-- C3 counterexample: the code removes punctuation *before* splitting, so
the two hyphens of `"a--b"` are deleted and the letters fuse into the single
token `"ab"`; the claimed value `["a", "b"]` is wrong. -/
theorem claim3_counterexample :
    tokenize "a--b" = ["ab"] ∧ tokenize "a--b" ≠ ["a", "b"] := by decide

/-- C3 amended: `tokenize ""` is empty, `tokenize "Hello, World!"` is
`["hello", "world"]`, and `tokenize "a--b"` is the single token `["ab"]`
(punctuation is deleted before splitting). -/
theorem claim3_tokenize_examples :
    tokenize "" = [] ∧ tokenize "Hello, World!" = ["hello", "world"] ∧
    tokenize "a--b" = ["ab"] := by decide

example : tokenize "  way up! way_down  " = ["way", "up", "waydown"] := by decide

/-! ## The training invariant -/

theorem trainInv_initState : TrainInv initState := by
  constructor
  · intro c; exact le_refl 0
  · intro t ht
    simp [initState] at ht

theorem trainInv_processWord (cand : Candidate) (s : TrainState)
    (word : String) (h : TrainInv s) : TrainInv (processWord cand s word) := by
  obtain ⟨hcount, hw⟩ := h
  refine ⟨fun c => hcount c, ?_⟩
  intro t ht c
  by_cases hv : (s.vocabulary word).isSome
  · by_cases htw : t = word
    · subst htw
      obtain ⟨q, hq, hsq⟩ := hw t hv c
      by_cases hcc : c = cand
      · subst hcc
        refine ⟨q + 1, ?_, le_add_of_le_of_nonneg hsq zero_le_one⟩
        simp [processWord, hv, hq]
      · refine ⟨q, ?_, hsq⟩
        simp [processWord, hv, hq, hcc]
    · have ht2 : (s.vocabulary t).isSome := by
        simpa [processWord, hv, htw] using ht
      obtain ⟨q, hq, hsq⟩ := hw t ht2 c
      refine ⟨q, ?_, hsq⟩
      simp [processWord, hv, htw, hq]
  · by_cases htw : t = word
    · subst htw
      by_cases hcc : c = cand
      · subst hcc
        refine ⟨SMOOTHING + 1, ?_,
          le_add_of_le_of_nonneg (le_refl _) zero_le_one⟩
        simp [processWord, hv]
      · refine ⟨SMOOTHING, ?_, le_refl _⟩
        simp [processWord, hv, hcc]
    · have ht' : (s.vocabulary t).isSome := by
        simpa [processWord, hv, htw] using ht
      obtain ⟨q, hq, hsq⟩ := hw t ht' c
      refine ⟨q, ?_, hsq⟩
      simp [processWord, hv, htw, hq]

theorem trainInv_foldl (cand : Candidate) (tokens : List String)
    (s : TrainState) (h : TrainInv s) :
    TrainInv (tokens.foldl (processWord cand) s) := by
  induction tokens generalizing s with
  | nil => exact h
  | cons tok rest ih => exact ih _ (trainInv_processWord cand s tok h)

theorem trainInv_processTweet (cand : Candidate) (tweet : String)
    (s : TrainState) (h : TrainInv s) :
    TrainInv (processTweet cand tweet s) := by
  apply trainInv_foldl
  refine ⟨?_, h.2⟩
  intro c
  dsimp only
  by_cases hc : c = cand
  · simp only [hc, if_true]
    linarith [h.1 cand]
  · simp only [hc, if_false]
    exact h.1 c

theorem trainInv_runTraining (docs : List (String × String))
    (s : TrainState) (h : TrainInv s) : TrainInv (runTraining docs s).1 := by
  induction docs generalizing s with
  | nil => exact h
  | cons d rest ih =>
    obtain ⟨tweet, label⟩ := d
    unfold runTraining
    cases hl : LABEL_MAP label with
    | none => exact h
    | some cand => exact ih _ (trainInv_processTweet cand tweet s h)

/-- Every vocabulary token of an invariant-satisfying state has a strictly
positive word probability for both candidates. -/
theorem wordProb_pos (s : TrainState) (hinv : TrainInv s) (c : Candidate)
    (t : String) (hv : (s.vocabulary t).isSome) :
    ∃ p, word_probabilities_per_candidate s c t = some p ∧ 0 < p := by
  obtain ⟨q, hq, hsq⟩ := hinv.2 t hv c
  have hq0 : (0 : ℚ) < q := by
    simp only [SMOOTHING] at hsq
    linarith
  have hden : (0 : ℚ) < s.total_tweet_count c + 2 := by linarith [hinv.1 c]
  exact ⟨q / (s.total_tweet_count c + 2),
    by simp [word_probabilities_per_candidate, hq], div_pos hq0 hden⟩

/-- The prior computation written as one conditional: `ZeroDivisionError`
when the total tweet count is zero, a math domain error when either prior is
non-positive, and otherwise the pair of logged priors. -/
theorem computeLogPriors_eq (lg : ℚ → ℚ) (s : TrainState) :
    computeLogPriors lg s =
      (if s.total_tweet_count .trump + s.total_tweet_count .hillary = 0 then
        Except.error .zeroDivisionError
      else if s.total_tweet_count .trump /
          (s.total_tweet_count .trump + s.total_tweet_count .hillary) ≤ 0 then
        Except.error .mathDomainError
      else if s.total_tweet_count .hillary /
          (s.total_tweet_count .trump + s.total_tweet_count .hillary) ≤ 0 then
        Except.error .mathDomainError
      else
        Except.ok
          (lg (s.total_tweet_count .trump /
            (s.total_tweet_count .trump + s.total_tweet_count .hillary)),
           lg (s.total_tweet_count .hillary /
            (s.total_tweet_count .trump + s.total_tweet_count .hillary)))) := by
  by_cases h0 : s.total_tweet_count .trump + s.total_tweet_count .hillary = 0
  · simp [computeLogPriors, divChecked, h0, bind, Except.bind]
  · by_cases h1 : s.total_tweet_count .trump /
        (s.total_tweet_count .trump + s.total_tweet_count .hillary) ≤ 0
    · simp [computeLogPriors, divChecked, logChecked, h0, h1, bind,
        Except.bind]
    · by_cases h2 : s.total_tweet_count .hillary /
          (s.total_tweet_count .trump + s.total_tweet_count .hillary) ≤ 0
      · simp [computeLogPriors, divChecked, logChecked, h0, h1, h2, bind,
          Except.bind]
      · simp [computeLogPriors, divChecked, logChecked, h0, h1, h2, bind,
          Except.bind]

/-- A skipped (out-of-vocabulary) token leaves the sums unchanged. -/
theorem sumStep_oov (lg : ℚ → ℚ) (s : TrainState) (acc : ℚ × ℚ)
    (token : String) (h : s.vocabulary token = none) :
    sumStep lg s acc token = Except.ok acc := by
  simp [sumStep, h]

/-- A text all of whose tokens are out of vocabulary contributes zero to
both log sums. -/
theorem tweetLogSums_oov (lg : ℚ → ℚ) (s : TrainState) (tokens : List String)
    (h : ∀ tok ∈ tokens, s.vocabulary tok = none) :
    tweetLogSums lg s tokens = Except.ok (0, 0) := by
  suffices haux : ∀ acc : ℚ × ℚ,
      tokens.foldlM (sumStep lg s) acc = Except.ok acc from haux (0, 0)
  induction tokens with
  | nil => intro acc; rfl
  | cons tok rest ih =>
    intro acc
    have hstep := sumStep_oov lg s acc tok (h tok (by simp))
    have ih2 := ih (fun x hx => h x (by simp [hx]))
    simp [List.foldlM_cons, hstep, ih2, bind, Except.bind]

/-- On an invariant-satisfying state, one step of the token loop always
succeeds: the vocabulary guard protects every lookup and every probability
passed to `log` is positive. -/
theorem sumStep_ok (lg : ℚ → ℚ) (s : TrainState) (hinv : TrainInv s)
    (acc : ℚ × ℚ) (token : String) :
    ∃ r, sumStep lg s acc token = Except.ok r := by
  by_cases hv : (s.vocabulary token).isSome
  · obtain ⟨pT, hpT, hposT⟩ := wordProb_pos s hinv .trump token hv
    obtain ⟨pH, hpH, hposH⟩ := wordProb_pos s hinv .hillary token hv
    refine ⟨(acc.1 + lg pT, acc.2 + lg pH), ?_⟩
    simp [sumStep, hv, dictLookup, hpT, hpH, logChecked, not_le.mpr hposT,
      not_le.mpr hposH, bind, Except.bind]
  · exact ⟨acc, by simp [sumStep, hv]⟩

/-- On an invariant-satisfying state the whole token loop always succeeds. -/
theorem tweetLogSums_ok (lg : ℚ → ℚ) (s : TrainState) (hinv : TrainInv s)
    (tokens : List String) :
    ∃ r, tweetLogSums lg s tokens = Except.ok r := by
  suffices haux : ∀ acc : ℚ × ℚ,
      ∃ r, tokens.foldlM (sumStep lg s) acc = Except.ok r from haux (0, 0)
  induction tokens with
  | nil => intro acc; exact ⟨acc, rfl⟩
  | cons tok rest ih =>
    intro acc
    obtain ⟨acc2, hstep⟩ := sumStep_ok lg s hinv acc tok
    obtain ⟨r, hr⟩ := ih acc2
    refine ⟨r, ?_⟩
    simp [List.foldlM_cons, hstep, hr, bind, Except.bind]

/-- Strict monotonicity on positives gives an order embedding of `≤`. -/
theorem lg_le_iff (lg : ℚ → ℚ)
    (hlg : ∀ a b : ℚ, 0 < a → a < b → lg a < lg b) (a b : ℚ) (ha : 0 < a)
    (hb : 0 < b) : lg a ≤ lg b ↔ a ≤ b := by
  constructor
  · intro h
    by_contra hab
    exact absurd (hlg b a hb (lt_of_not_le hab)) (not_lt.mpr h)
  · intro h
    rcases eq_or_lt_of_le h with rfl | hab
    · exact le_refl _
    · exact le_of_lt (hlg a b ha hab)

/-! ## Out-of-vocabulary inputs (C4) and totality of classification (C10) -/

/-- C4: every out-of-vocabulary token is skipped (contributing zero to both
log scores, never an error), so an input all of whose tokens are out of
vocabulary — including one that tokenizes to nothing — is classified as the
class with the larger prior, i.e. the larger `total_tweet_count`. -/
theorem claim4_oov_highest_prior (lg : ℚ → ℚ) (s : TrainState) (lp : ℚ × ℚ)
    (tweet : String)
    (hlg : ∀ a b : ℚ, 0 < a → a < b → lg a < lg b)
    (hT : 0 ≤ s.total_tweet_count .trump)
    (hH : 0 ≤ s.total_tweet_count .hillary)
    (hoov : ∀ tok ∈ tokenize tweet, s.vocabulary tok = none)
    (hlp : computeLogPriors lg s = Except.ok lp)
    (hne : s.total_tweet_count .trump ≠ s.total_tweet_count .hillary) :
    tweetLogSums lg s (tokenize tweet) = Except.ok (0, 0) ∧
    classifyTweet lg s lp tweet =
      Except.ok
        (if s.total_tweet_count .hillary < s.total_tweet_count .trump then
          Candidate.trump
        else Candidate.hillary) := by
  have hsums := tweetLogSums_oov lg s (tokenize tweet) hoov
  refine ⟨hsums, ?_⟩
  rw [classifyTweet_eq_of_sums lg s lp tweet (0, 0) hsums,
    selectCandidate_eq_argmax]
  rw [computeLogPriors_eq] at hlp
  set cT := s.total_tweet_count .trump with hcT
  set cH := s.total_tweet_count .hillary with hcH
  by_cases h0 : cT + cH = 0
  · rw [if_pos h0] at hlp
    exact absurd hlp (by simp)
  rw [if_neg h0] at hlp
  by_cases h1 : cT / (cT + cH) ≤ 0
  · rw [if_pos h1] at hlp
    exact absurd hlp (by simp)
  rw [if_neg h1] at hlp
  by_cases h2 : cH / (cT + cH) ≤ 0
  · rw [if_pos h2] at hlp
    exact absurd hlp (by simp)
  rw [if_neg h2] at hlp
  have hlp2 : lp = (lg (cT / (cT + cH)), lg (cH / (cT + cH))) :=
    (Except.ok.inj hlp).symm
  have htot : 0 < cT + cH := lt_of_le_of_ne (add_nonneg hT hH) (Ne.symm h0)
  have hpT : 0 < cT / (cT + cH) := lt_of_not_le h1
  have hpH : 0 < cH / (cT + cH) := lt_of_not_le h2
  subst hlp2
  dsimp only
  rw [add_zero, add_zero]
  unfold argmaxCandidate
  have hiff : lg (cH / (cT + cH)) ≤ lg (cT / (cT + cH)) ↔ cH ≤ cT := by
    rw [lg_le_iff lg hlg _ _ hpH hpT]
    exact div_le_div_iff_of_pos_right htot
  by_cases hcase : cH < cT
  · rw [if_pos hcase, if_pos (hiff.mpr (le_of_lt hcase))]
  · rw [if_neg hcase]
    have hlt : cT < cH := lt_of_le_of_ne (le_of_not_lt hcase) hne
    rw [if_neg (fun hc => absurd (hiff.mp hc) (not_le.mpr hlt))]

/-- Witness for C4: over `demoState` (priors 2/3 vs 1/3), the fully
out-of-vocabulary input `"zzz"` is classified as the higher-prior class. -/
theorem claim4_witness :
    tweetLogSums (fun q => q) demoState (tokenize "zzz") =
      Except.ok (0, 0) ∧
    classifyTweet (fun q => q) demoState (2 / 3, 1 / 3) "zzz" =
      Except.ok
        (if demoState.total_tweet_count .hillary <
            demoState.total_tweet_count .trump then
          Candidate.trump
        else Candidate.hillary) :=
  claim4_oov_highest_prior (fun q => q) demoState (2 / 3, 1 / 3) "zzz"
    (fun _ _ _ hab => hab)
    (of_decide_eq_true (by with_unfolding_all rfl))
    (of_decide_eq_true (by with_unfolding_all rfl))
    (of_decide_eq_true (by with_unfolding_all rfl))
    (of_decide_eq_true (by with_unfolding_all rfl))
    (of_decide_eq_true (by with_unfolding_all rfl))

/-- C10: over any model obtained from a successful `fit` whose corpus
contains at least one document of each class, classification never fails:
the prior computation succeeds (both priors are positive, so no division by
zero and no `log` domain error) and every input string is classified — each
word-probability lookup is guarded by the vocabulary test and each
probability passed to `log` is strictly positive. -/
theorem claim10_classification_total (docs : List (String × String))
    (lg : ℚ → ℚ) (tweet : String)
    (_hfit : (runTraining docs initState).2 = none)
    (hT : 0 < (runTraining docs initState).1.total_tweet_count .trump)
    (hH : 0 < (runTraining docs initState).1.total_tweet_count .hillary) :
    ∃ lp c,
      computeLogPriors lg (runTraining docs initState).1 = Except.ok lp ∧
      classifyTweet lg (runTraining docs initState).1 lp tweet
        = Except.ok c := by
  set s := (runTraining docs initState).1 with hs
  have hinv : TrainInv s := by
    rw [hs]
    exact trainInv_runTraining docs initState trainInv_initState
  have htot : 0 < s.total_tweet_count .trump + s.total_tweet_count .hillary :=
    by linarith
  have hpT : 0 < s.total_tweet_count .trump /
      (s.total_tweet_count .trump + s.total_tweet_count .hillary) :=
    div_pos hT htot
  have hpH : 0 < s.total_tweet_count .hillary /
      (s.total_tweet_count .trump + s.total_tweet_count .hillary) :=
    div_pos hH htot
  obtain ⟨sums, hsums⟩ := tweetLogSums_ok lg s hinv (tokenize tweet)
  refine ⟨(lg (s.total_tweet_count .trump /
        (s.total_tweet_count .trump + s.total_tweet_count .hillary)),
      lg (s.total_tweet_count .hillary /
        (s.total_tweet_count .trump + s.total_tweet_count .hillary))),
    _, ?_, classifyTweet_eq_of_sums lg s _ tweet sums hsums⟩
  rw [computeLogPriors_eq, if_neg (ne_of_gt htot),
    if_neg (not_le.mpr hpT), if_neg (not_le.mpr hpH)]

/-- Witness for C10 at a concrete corpus and input. -/
theorem claim10_witness :
    ∃ lp c,
      computeLogPriors (fun q => q)
        (runTraining [("aa bb", "0\n"), ("aa cc", "1\n")] initState).1
        = Except.ok lp ∧
      classifyTweet (fun q => q)
        (runTraining [("aa bb", "0\n"), ("aa cc", "1\n")] initState).1 lp
        "aa zz" = Except.ok c :=
  claim10_classification_total [("aa bb", "0\n"), ("aa cc", "1\n")]
    (fun q => q) "aa zz"
    (of_decide_eq_true (by with_unfolding_all rfl))
    (of_decide_eq_true (by with_unfolding_all rfl))
    (of_decide_eq_true (by with_unfolding_all rfl))

/-! ## Failure behaviour of fit and the prior computation (C6, C7) -/

/-- C6 counterexample: on an empty training sequence the training loop
itself completes without any error, and the subsequent prior computation
fails with `ZeroDivisionError` — not with the specification's
`EmptyTrainingSetError`, which the code never raises. -/
theorem claim6_counterexample :
    runTraining [] initState = (initState, none) ∧
    computeLogPriors (fun q => q) initState =
      Except.error PyError.zeroDivisionError ∧
    PyError.zeroDivisionError ≠ PyError.emptyTrainingSetError :=
  ⟨rfl, of_decide_eq_true (by with_unfolding_all rfl), by decide⟩

/-- C6 amended: the code performs no emptiness check of its own; failure
surfaces in the prior computation, which (for the nonnegative counts
produced by training) raises `ZeroDivisionError` exactly when the total
tweet count is zero (as with an empty training sequence), raises a math
domain error (`log 0`) exactly when some class has zero documents while the
total is nonzero, and succeeds exactly when both classes have a positive
document count; no other kind of failure occurs there. -/
theorem claim6_failure_characterization (lg : ℚ → ℚ) (s : TrainState)
    (hT : 0 ≤ s.total_tweet_count .trump)
    (hH : 0 ≤ s.total_tweet_count .hillary) :
    (computeLogPriors lg s = Except.error PyError.zeroDivisionError ↔
      s.total_tweet_count .trump + s.total_tweet_count .hillary = 0) ∧
    (computeLogPriors lg s = Except.error PyError.mathDomainError ↔
      (s.total_tweet_count .trump + s.total_tweet_count .hillary ≠ 0 ∧
        (s.total_tweet_count .trump = 0 ∨
         s.total_tweet_count .hillary = 0))) ∧
    ((∃ lp, computeLogPriors lg s = Except.ok lp) ↔
      (0 < s.total_tweet_count .trump ∧
       0 < s.total_tweet_count .hillary)) := by
  rw [computeLogPriors_eq]
  set cT := s.total_tweet_count .trump with hcT
  set cH := s.total_tweet_count .hillary with hcH
  by_cases h0 : cT + cH = 0
  · have hT0 : cT = 0 := by linarith
    rw [if_pos h0]
    refine ⟨iff_of_true rfl h0, ?_, ?_⟩
    · exact iff_of_false
        (fun h => PyError.noConfusion (Except.error.inj h))
        (fun hc => hc.1 h0)
    · exact iff_of_false
        (fun hc => Except.noConfusion hc.choose_spec)
        (fun hc => absurd hT0 (ne_of_gt hc.1))
  · have htot : 0 < cT + cH := lt_of_le_of_ne (add_nonneg hT hH) (Ne.symm h0)
    rw [if_neg h0]
    have hdivT : cT / (cT + cH) ≤ 0 ↔ cT = 0 := by
      rw [div_nonpos_iff]
      constructor
      · rintro (⟨ha, hb⟩ | ⟨ha, _⟩)
        · linarith
        · linarith
      · intro ha
        exact Or.inr ⟨le_of_eq ha, le_of_lt htot⟩
    have hdivH : cH / (cT + cH) ≤ 0 ↔ cH = 0 := by
      rw [div_nonpos_iff]
      constructor
      · rintro (⟨ha, hb⟩ | ⟨ha, _⟩)
        · linarith
        · linarith
      · intro ha
        exact Or.inr ⟨le_of_eq ha, le_of_lt htot⟩
    by_cases h1 : cT / (cT + cH) ≤ 0
    · rw [if_pos h1]
      have hT0 : cT = 0 := hdivT.mp h1
      refine ⟨?_, iff_of_true rfl ⟨h0, Or.inl hT0⟩, ?_⟩
      · exact iff_of_false
          (fun h => PyError.noConfusion (Except.error.inj h)) h0
      · exact iff_of_false
          (fun hc => Except.noConfusion hc.choose_spec)
          (fun hc => absurd hT0 (ne_of_gt hc.1))
    · rw [if_neg h1]
      have hTpos : 0 < cT :=
        lt_of_le_of_ne hT (fun he => h1 (hdivT.mpr he.symm))
      by_cases h2 : cH / (cT + cH) ≤ 0
      · rw [if_pos h2]
        have hH0 : cH = 0 := hdivH.mp h2
        refine ⟨?_, iff_of_true rfl ⟨h0, Or.inr hH0⟩, ?_⟩
        · exact iff_of_false
            (fun h => PyError.noConfusion (Except.error.inj h)) h0
        · exact iff_of_false
            (fun hc => Except.noConfusion hc.choose_spec)
            (fun hc => absurd hH0 (ne_of_gt hc.2))
      · rw [if_neg h2]
        have hHpos : 0 < cH :=
          lt_of_le_of_ne hH (fun he => h2 (hdivH.mpr he.symm))
        refine ⟨?_, ?_, iff_of_true ⟨_, rfl⟩ ⟨hTpos, hHpos⟩⟩
        · exact iff_of_false (fun h => Except.noConfusion h) h0
        · refine iff_of_false (fun h => Except.noConfusion h) ?_
          rintro ⟨-, hor | hor⟩
          · exact absurd hor (ne_of_gt hTpos)
          · exact absurd hor (ne_of_gt hHpos)

/-- Witness for the amended C6 at the empty-training state. -/
theorem claim6_witness :
    (computeLogPriors (fun q => q) initState =
        Except.error PyError.zeroDivisionError ↔
      initState.total_tweet_count .trump +
        initState.total_tweet_count .hillary = 0) ∧
    (computeLogPriors (fun q => q) initState =
        Except.error PyError.mathDomainError ↔
      (initState.total_tweet_count .trump +
          initState.total_tweet_count .hillary ≠ 0 ∧
        (initState.total_tweet_count .trump = 0 ∨
         initState.total_tweet_count .hillary = 0))) ∧
    ((∃ lp, computeLogPriors (fun q => q) initState = Except.ok lp) ↔
      (0 < initState.total_tweet_count .trump ∧
       0 < initState.total_tweet_count .hillary)) :=
  claim6_failure_characterization (fun q => q) initState
    (of_decide_eq_true (by with_unfolding_all rfl))
    (of_decide_eq_true (by with_unfolding_all rfl))

/-- C7 amended: the training loop mutates the global tables in place, so
when it raises (unknown label) the returned state is exactly the state
after training on the prefix of documents before the failing one — the
updates of that prefix are retained; `fit` is not atomic. -/
theorem claim7_partial_state_on_failure (pre : List (String × String))
    (tweet label : String) (rest : List (String × String)) (s0 : TrainState)
    (hpre : (runTraining pre s0).2 = none)
    (hbad : LABEL_MAP label = none) :
    runTraining (pre ++ (tweet, label) :: rest) s0 =
      ((runTraining pre s0).1, some PyError.keyError) := by
  induction pre generalizing s0 with
  | nil =>
    simp only [List.nil_append, runTraining, hbad]
  | cons d pre2 ih =>
    obtain ⟨tw, lb⟩ := d
    cases hl : LABEL_MAP lb with
    | none =>
      exfalso
      simp [runTraining, hl] at hpre
    | some cand =>
      have hpre2 : (runTraining pre2 (processTweet cand tw s0)).2 = none := by
        simpa [runTraining, hl] using hpre
      have hih := ih (processTweet cand tw s0) hpre2
      simpa [runTraining, hl] using hih

/-- Witness for the amended C7 at a concrete failing corpus. -/
theorem claim7_witness :
    runTraining ([("hi", "0\n")] ++ ("yo", "zzz") :: []) initState =
      ((runTraining [("hi", "0\n")] initState).1, some PyError.keyError) :=
  claim7_partial_state_on_failure [("hi", "0\n")] "yo" "zzz" [] initState
    (of_decide_eq_true (by with_unfolding_all rfl))
    (of_decide_eq_true (by with_unfolding_all rfl))

/-- C7 counterexample: training on `[("hi", "0\n"), ("yo", "zzz")]` fails
with `KeyError` on the second document, yet the partially mutated state is
retained — the vocabulary contains `"hi"` and hillary's tweet count is 1,
not the untrained state's empty tables. -/
theorem claim7_counterexample :
    (runTraining [("hi", "0\n"), ("yo", "zzz")] initState).2 =
      some PyError.keyError ∧
    (runTraining [("hi", "0\n"), ("yo", "zzz")] initState).1.vocabulary "hi"
      = some 3 ∧
    (runTraining [("hi", "0\n"), ("yo", "zzz")]
      initState).1.total_tweet_count Candidate.hillary = 1 ∧
    initState.vocabulary "hi" = none ∧
    initState.total_tweet_count Candidate.hillary = 0 :=
  ⟨of_decide_eq_true (by with_unfolding_all rfl),
   of_decide_eq_true (by with_unfolding_all rfl),
   of_decide_eq_true (by with_unfolding_all rfl),
   rfl, rfl⟩

/-! ## Smoothing invariant (C2) and the probability formula (C5) -/

/-- C2: after a successful `fit`, every vocabulary token has, for both
candidates, a word count of at least `SMOOTHING` (= 1.0) — established by
the first-sight initialization to the smoothing constant and preserved
because counts are only incremented — and consequently its word probability
is strictly positive. -/
theorem claim2_smoothing_invariant (docs : List (String × String))
    (_hfit : (runTraining docs initState).2 = none) (c : Candidate)
    (t : String)
    (hvoc : ((runTraining docs initState).1.vocabulary t).isSome) :
    ∃ q, (runTraining docs initState).1.word_counts_per_candidate c t
        = some q ∧
      SMOOTHING ≤ q ∧
      ∃ p, word_probabilities_per_candidate (runTraining docs initState).1
          c t = some p ∧ 0 < p := by
  have hinv := trainInv_runTraining docs initState trainInv_initState
  obtain ⟨q, hq, hsq⟩ := hinv.2 t hvoc c
  have hq0 : (0 : ℚ) < q := by
    simp only [SMOOTHING] at hsq
    linarith
  have hden : (0 : ℚ) <
      (runTraining docs initState).1.total_tweet_count c + 2 := by
    linarith [hinv.1 c]
  refine ⟨q, hq, hsq,
    q / ((runTraining docs initState).1.total_tweet_count c + 2), ?_, ?_⟩
  · simp [word_probabilities_per_candidate, hq]
  · exact div_pos hq0 hden

/-- Witness for C2 at a concrete training set and token. -/
theorem claim2_witness :
    ∃ q, (runTraining [("hi there", "0\n"), ("hi you", "1\n")]
        initState).1.word_counts_per_candidate Candidate.trump "hi"
        = some q ∧
      SMOOTHING ≤ q ∧
      ∃ p, word_probabilities_per_candidate
          (runTraining [("hi there", "0\n"), ("hi you", "1\n")] initState).1
          Candidate.trump "hi" = some p ∧ 0 < p :=
  claim2_smoothing_invariant [("hi there", "0\n"), ("hi you", "1\n")]
    (of_decide_eq_true (by with_unfolding_all rfl)) Candidate.trump "hi"
    (of_decide_eq_true (by with_unfolding_all rfl))

/-- C5: after `fit`, the derived table satisfies
`WordProbability[c][t] = WordCounts[c][t] / (ClassDocumentCount[c] +
numClasses × smoothing)`; with two classes and smoothing 1.0 the denominator
is the code's literal `total_tweet_count[candidate] + 2`. -/
theorem claim5_probability_formula (docs : List (String × String))
    (_hfit : (runTraining docs initState).2 = none) (c : Candidate)
    (t : String) (count : ℚ)
    (hc : (runTraining docs initState).1.word_counts_per_candidate c t
      = some count) :
    word_probabilities_per_candidate (runTraining docs initState).1 c t =
      some (count /
        ((runTraining docs initState).1.total_tweet_count c +
          numClasses * SMOOTHING)) := by
  have h2 : numClasses * SMOOTHING = (2 : ℚ) := by
    norm_num [numClasses, SMOOTHING]
  simp [word_probabilities_per_candidate, hc, h2]

/-- Witness for C5 at a concrete training set and token. -/
theorem claim5_witness :
    word_probabilities_per_candidate
        (runTraining [("hi there", "0\n"), ("hi you", "1\n")] initState).1
        Candidate.trump "hi" =
      some (2 /
        ((runTraining [("hi there", "0\n"), ("hi you", "1\n")]
            initState).1.total_tweet_count Candidate.trump +
          numClasses * SMOOTHING)) :=
  claim5_probability_formula [("hi there", "0\n"), ("hi you", "1\n")]
    (of_decide_eq_true (by with_unfolding_all rfl)) Candidate.trump "hi" 2
    (of_decide_eq_true (by with_unfolding_all rfl))
example :
    (runTraining [("hi there", "0\n"), ("hi you", "1\n")] initState).2
      = none := of_decide_eq_true (by with_unfolding_all rfl)
example :
    (runTraining [("hi there", "0\n"), ("hi you", "1\n")] initState).1.vocabulary
      "hi" = some 4 := of_decide_eq_true (by with_unfolding_all rfl)
example :
    (runTraining [("hi there", "0\n"), ("hi you", "1\n")]
      initState).1.word_counts_per_candidate .trump "there" = some 1 := of_decide_eq_true (by with_unfolding_all rfl)
example :
    word_probabilities_per_candidate
      (runTraining [("hi there", "0\n"), ("hi you", "1\n")] initState).1
      .trump "hi" = some (2 / 3) := of_decide_eq_true (by with_unfolding_all rfl)
example :
    computeLogPriors (fun q => q)
      (runTraining [("hi there", "0\n"), ("hi you", "1\n")] initState).1
      = Except.ok (1 / 2, 1 / 2) := of_decide_eq_true (by with_unfolding_all rfl)
example :
    classifyTweet (fun q => q)
      (runTraining [("hi there", "0\n"), ("hi you", "1\n")] initState).1
      (0, 0) "there there" = Except.ok .hillary := of_decide_eq_true (by with_unfolding_all rfl)

/-! ## Tokenizer idempotence (C9) -/

theorem splitWordsAux_wordChars : ∀ (cs acc : List Char),
    (∀ c ∈ acc, isWordChar c = true) →
    ∀ t ∈ splitWordsAux cs acc, ∀ c ∈ t, isWordChar c = true := by
  intro cs
  induction cs with
  | nil =>
    intro acc hacc t ht c hc
    unfold splitWordsAux at ht
    by_cases he : acc.isEmpty
    · simp [he] at ht
    · simp [he] at ht
      subst ht
      exact hacc c (List.mem_reverse.mp hc)
  | cons a cs ih =>
    intro acc hacc t ht c hc
    unfold splitWordsAux at ht
    by_cases hw : isWordChar a
    · rw [if_pos hw] at ht
      refine ih (a :: acc) ?_ t ht c hc
      intro x hx
      rcases List.mem_cons.mp hx with rfl | hx
      · exact hw
      · exact hacc x hx
    · rw [if_neg hw] at ht
      by_cases he : acc.isEmpty
      · rw [if_pos he] at ht
        exact ih [] (by simp) t ht c hc
      · rw [if_neg he] at ht
        rcases List.mem_cons.mp ht with rfl | ht
        · exact hacc c (List.mem_reverse.mp hc)
        · exact ih [] (by simp) t ht c hc

theorem splitWordsAux_ne_nil : ∀ (cs acc : List Char),
    ∀ t ∈ splitWordsAux cs acc, t ≠ [] := by
  intro cs
  induction cs with
  | nil =>
    intro acc t ht
    unfold splitWordsAux at ht
    by_cases he : acc.isEmpty
    · simp [he] at ht
    · simp [he] at ht
      subst ht
      simp only [ne_eq, List.reverse_eq_nil_iff]
      exact fun hn => he (by simp [hn])
  | cons a cs ih =>
    intro acc t ht
    unfold splitWordsAux at ht
    by_cases hw : isWordChar a
    · rw [if_pos hw] at ht
      exact ih (a :: acc) t ht
    · rw [if_neg hw] at ht
      by_cases he : acc.isEmpty
      · rw [if_pos he] at ht
        exact ih [] t ht
      · rw [if_neg he] at ht
        rcases List.mem_cons.mp ht with rfl | ht
        · simp only [ne_eq, List.reverse_eq_nil_iff]
          exact fun hn => he (by simp [hn])
        · exact ih [] t ht

theorem splitWordsAux_subset : ∀ (cs acc : List Char),
    ∀ t ∈ splitWordsAux cs acc, ∀ c ∈ t, c ∈ cs ∨ c ∈ acc := by
  intro cs
  induction cs with
  | nil =>
    intro acc t ht c hc
    unfold splitWordsAux at ht
    by_cases he : acc.isEmpty
    · simp [he] at ht
    · simp [he] at ht
      subst ht
      exact Or.inr (List.mem_reverse.mp hc)
  | cons a cs ih =>
    intro acc t ht c hc
    unfold splitWordsAux at ht
    by_cases hw : isWordChar a
    · rw [if_pos hw] at ht
      rcases ih (a :: acc) t ht c hc with h | h
      · exact Or.inl (List.mem_cons_of_mem a h)
      · rcases List.mem_cons.mp h with hca | h
        · exact Or.inl (by rw [hca]; exact List.mem_cons_self a cs)
        · exact Or.inr h
    · rw [if_neg hw] at ht
      by_cases he : acc.isEmpty
      · rw [if_pos he] at ht
        rcases ih [] t ht c hc with h | h
        · exact Or.inl (List.mem_cons_of_mem a h)
        · simp at h
      · rw [if_neg he] at ht
        rcases List.mem_cons.mp ht with rfl | ht
        · exact Or.inr (List.mem_reverse.mp hc)
        · rcases ih [] t ht c hc with h | h
          · exact Or.inl (List.mem_cons_of_mem a h)
          · simp at h

theorem splitWordsAux_append_run : ∀ (t rest acc : List Char),
    (∀ c ∈ t, isWordChar c = true) →
    splitWordsAux (t ++ rest) acc = splitWordsAux rest (t.reverse ++ acc) := by
  intro t
  induction t with
  | nil => intro rest acc _; simp
  | cons a t ih =>
    intro rest acc h
    have ha : isWordChar a = true := h a (List.mem_cons_self a t)
    have h2 : ∀ c ∈ t, isWordChar c = true :=
      fun c hc => h c (List.mem_cons_of_mem a hc)
    have hstep : splitWordsAux ((a :: t) ++ rest) acc =
        splitWordsAux (t ++ rest) (a :: acc) := by
      rw [List.cons_append, splitWordsAux, if_pos ha]
    rw [hstep, ih rest (a :: acc) h2]
    congr 1
    simp

theorem pyToLower_eq_of_find?_none (c : Char)
    (h : lowerMap.find? (fun p => p.1 == c) = none) : pyToLower c = c := by
  unfold pyToLower
  rw [h]

theorem pyToLower_eq_of_find?_some (c : Char) (p : Char × Char)
    (h : lowerMap.find? (fun q => q.1 == c) = some p) : pyToLower c = p.2 := by
  unfold pyToLower
  rw [h]

theorem lowerMap_snd_props :
    ∀ p ∈ lowerMap, pyToLower p.2 = p.2 ∧ isPunct p.2 = false := by decide

theorem pyToLower_idem (c : Char) :
    pyToLower (pyToLower c) = pyToLower c := by
  cases hf : lowerMap.find? (fun p => p.1 == c) with
  | none =>
    rw [pyToLower_eq_of_find?_none c hf]
    exact pyToLower_eq_of_find?_none c hf
  | some p =>
    rw [pyToLower_eq_of_find?_some c p hf]
    exact (lowerMap_snd_props p (List.mem_of_find?_eq_some hf)).1

theorem isPunct_pyToLower (c : Char) (h : isPunct c = false) :
    isPunct (pyToLower c) = false := by
  cases hf : lowerMap.find? (fun p => p.1 == c) with
  | none =>
    rw [pyToLower_eq_of_find?_none c hf]
    exact h
  | some p =>
    rw [pyToLower_eq_of_find?_some c p hf]
    exact (lowerMap_snd_props p (List.mem_of_find?_eq_some hf)).2

theorem not_pySpace_of_wordChar (c : Char) (h : isWordChar c = true) :
    isPySpace c = false := by
  cases hb : isPySpace c with
  | false => rfl
  | true =>
    exfalso
    simp only [isPySpace, Bool.or_eq_true, beq_iff_eq] at hb
    rcases hb with ((((hc | hc) | hc) | hc) | hc) | hc <;>
      rw [hc] at h <;> exact absurd h (by decide)

theorem pyStrip_subset (l : List Char) : ∀ c ∈ pyStrip l, c ∈ l := by
  intro c hc
  unfold pyStrip at hc
  rw [List.mem_reverse] at hc
  have hc2 := (List.dropWhile_sublist isPySpace).subset hc
  rw [List.mem_reverse] at hc2
  exact (List.dropWhile_sublist isPySpace).subset hc2

theorem pyStrip_eq_self (l : List Char)
    (hhead : ∀ c, l.head? = some c → isPySpace c = false)
    (hlast : ∀ c, l.getLast? = some c → isPySpace c = false) :
    pyStrip l = l := by
  cases l with
  | nil => rfl
  | cons a m =>
    have ha : isPySpace a = false := hhead a rfl
    unfold pyStrip
    rw [List.dropWhile_cons, ha]
    simp only [Bool.false_eq_true, if_false]
    cases hrev : (a :: m).reverse with
    | nil => exact absurd (congrArg List.length hrev) (by simp)
    | cons b k =>
      have hb : (a :: m).getLast? = some b := by
        rw [List.getLast?_eq_head?_reverse, hrev]
        rfl
      have hbs : isPySpace b = false := hlast b hb
      rw [List.dropWhile_cons, hbs]
      simp only [Bool.false_eq_true, if_false]
      rw [← hrev, List.reverse_reverse]

theorem joinSpChars_ne_nil (t : List Char) (ts : List (List Char))
    (ht : t ≠ []) : joinSpChars (t :: ts) ≠ [] := by
  cases ts with
  | nil => simpa [joinSpChars] using ht
  | cons t2 ts2 => simp [joinSpChars]

theorem mem_joinSpChars : ∀ (ts : List (List Char)) (c : Char),
    c ∈ joinSpChars ts → (∃ t ∈ ts, c ∈ t) ∨ c = ' ' := by
  intro ts
  induction ts with
  | nil =>
    intro c hc
    simp [joinSpChars] at hc
  | cons t ts2 ih =>
    intro c hc
    cases ts2 with
    | nil =>
      simp only [joinSpChars] at hc
      exact Or.inl ⟨t, by simp, hc⟩
    | cons t2 ts3 =>
      simp only [joinSpChars, List.mem_append, List.mem_cons] at hc
      rcases hc with hc | hc | hc
      · exact Or.inl ⟨t, by simp, hc⟩
      · exact Or.inr hc
      · rcases ih c hc with ⟨u, hu, hcu⟩ | hsp
        · exact Or.inl ⟨u, by simp [hu], hcu⟩
        · exact Or.inr hsp

theorem joinSpChars_head (ts : List (List Char))
    (hne : ∀ t ∈ ts, t ≠ []) (c : Char)
    (hc : (joinSpChars ts).head? = some c) : ∃ t ∈ ts, c ∈ t := by
  cases ts with
  | nil => simp [joinSpChars] at hc
  | cons t ts2 =>
    have htne : t ≠ [] := hne t (by simp)
    cases t with
    | nil => exact absurd rfl htne
    | cons a u =>
      cases ts2 with
      | nil =>
        simp only [joinSpChars, List.head?_cons] at hc
        refine ⟨a :: u, by simp, ?_⟩
        rw [← Option.some.inj hc]
        exact List.mem_cons_self a u
      | cons t2 ts3 =>
        simp only [joinSpChars, List.cons_append, List.head?_cons] at hc
        refine ⟨a :: u, by simp, ?_⟩
        rw [← Option.some.inj hc]
        exact List.mem_cons_self a u

theorem joinSpChars_getLast : ∀ (ts : List (List Char)),
    (∀ t ∈ ts, t ≠ []) → ∀ c, (joinSpChars ts).getLast? = some c →
    ∃ t ∈ ts, c ∈ t := by
  intro ts
  induction ts with
  | nil =>
    intro _ c hc
    simp [joinSpChars] at hc
  | cons t ts2 ih =>
    intro hne c hc
    cases ts2 with
    | nil =>
      simp only [joinSpChars] at hc
      exact ⟨t, by simp, List.mem_of_getLast?_eq_some hc⟩
    | cons t2 ts3 =>
      simp only [joinSpChars] at hc
      rw [List.getLast?_append] at hc
      have hjne : joinSpChars (t2 :: ts3) ≠ [] :=
        joinSpChars_ne_nil t2 ts3 (hne t2 (by simp))
      cases hm : (joinSpChars (t2 :: ts3)).getLast? with
      | none => exact absurd (List.getLast?_eq_none_iff.mp hm) hjne
      | some x =>
        have hcons : (' ' :: joinSpChars (t2 :: ts3)).getLast? = some x := by
          rw [show (' ' :: joinSpChars (t2 :: ts3)) =
            [' '] ++ joinSpChars (t2 :: ts3) from rfl]
          rw [List.getLast?_append, hm]
          rfl
        rw [hcons] at hc
        simp only [Option.or_some] at hc
        obtain rfl : x = c := Option.some.inj hc
        obtain ⟨u, hu, hxu⟩ :=
          ih (fun v hv => hne v (by simp [hv])) x hm
        exact ⟨u, by simp [hu], hxu⟩

theorem splitWordsAux_joinSpChars : ∀ (ts : List (List Char)),
    (∀ t ∈ ts, t ≠ []) → (∀ t ∈ ts, ∀ c ∈ t, isWordChar c = true) →
    splitWordsAux (joinSpChars ts) [] = ts := by
  intro ts
  induction ts with
  | nil =>
    intro _ _
    rfl
  | cons t ts2 ih =>
    intro hne hword
    have htw : ∀ c ∈ t, isWordChar c = true := hword t (by simp)
    have htne : t ≠ [] := hne t (by simp)
    cases ts2 with
    | nil =>
      have h1 : joinSpChars [t] = t := rfl
      rw [h1]
      have h2 := splitWordsAux_append_run t [] [] htw
      rw [List.append_nil] at h2
      rw [h2, splitWordsAux,
        if_neg (by simp [List.isEmpty_eq_true, htne])]
      simp
    | cons t2 ts3 =>
      have h1 : joinSpChars (t :: t2 :: ts3) =
          t ++ ' ' :: joinSpChars (t2 :: ts3) := rfl
      rw [h1, splitWordsAux_append_run t _ [] htw, splitWordsAux,
        if_neg (by decide),
        if_neg (by simp [List.isEmpty_eq_true, htne]),
        ih (fun u hu => hne u (by simp [hu]))
          (fun u hu => hword u (by simp [hu]))]
      simp

/-- Every token produced by `tokenizeChars` is a nonempty run of word
characters, none of which is punctuation, each a fixed point of
lowercasing. -/
theorem tokenizeChars_token_props (l : List Char) :
    ∀ t ∈ tokenizeChars l, t ≠ [] ∧ ∀ c ∈ t,
      isWordChar c = true ∧ isPunct c = false ∧ pyToLower c = c := by
  intro t ht
  refine ⟨splitWordsAux_ne_nil _ [] t ht, ?_⟩
  intro c hc
  have hword : isWordChar c = true :=
    splitWordsAux_wordChars _ [] (by simp) t ht c hc
  have hmem : c ∈ pyStrip ((remove_punctuation l).map pyToLower) := by
    rcases splitWordsAux_subset _ [] t ht c hc with h | h
    · exact h
    · simp at h
  have hmem2 : c ∈ (remove_punctuation l).map pyToLower :=
    pyStrip_subset _ c hmem
  obtain ⟨c0, hc0mem, rfl⟩ := List.mem_map.mp hmem2
  have hc0p : isPunct c0 = false := by
    simp only [remove_punctuation] at hc0mem
    have hfil := List.mem_filter.mp hc0mem
    simpa using hfil.2
  exact ⟨hword, isPunct_pyToLower c0 hc0p, pyToLower_idem c0⟩

/-- The tokenizer is unchanged by re-tokenizing its own output joined with
single spaces, at the level of character lists. -/
theorem tokenizeChars_joinSpChars (l : List Char) :
    tokenizeChars (joinSpChars (tokenizeChars l)) = tokenizeChars l := by
  have hprops := tokenizeChars_token_props l
  set ts := tokenizeChars l with hts
  have hne : ∀ t ∈ ts, t ≠ [] := fun t ht => (hprops t ht).1
  have hword : ∀ t ∈ ts, ∀ c ∈ t, isWordChar c = true :=
    fun t ht c hc => ((hprops t ht).2 c hc).1
  have hjchar : ∀ c ∈ joinSpChars ts,
      isPunct c = false ∧ pyToLower c = c := by
    intro c hc
    rcases mem_joinSpChars ts c hc with ⟨t, ht, hct⟩ | rfl
    · exact ⟨((hprops t ht).2 c hct).2.1, ((hprops t ht).2 c hct).2.2⟩
    · exact ⟨by decide, by decide⟩
  have h1 : remove_punctuation (joinSpChars ts) = joinSpChars ts := by
    unfold remove_punctuation
    rw [List.filter_eq_self]
    intro c hc
    simp [(hjchar c hc).1]
  have hmapid : ∀ (m : List Char), (∀ c ∈ m, pyToLower c = c) →
      m.map pyToLower = m := by
    intro m hm
    induction m with
    | nil => rfl
    | cons a m ih =>
      simp only [List.map_cons, hm a (by simp),
        ih (fun c hc => hm c (by simp [hc]))]
  have h2 : (joinSpChars ts).map pyToLower = joinSpChars ts :=
    hmapid _ (fun c hc => (hjchar c hc).2)
  have h3 : pyStrip (joinSpChars ts) = joinSpChars ts := by
    apply pyStrip_eq_self
    · intro c hc
      obtain ⟨t, ht, hct⟩ := joinSpChars_head ts hne c hc
      exact not_pySpace_of_wordChar c (hword t ht c hct)
    · intro c hc
      obtain ⟨t, ht, hct⟩ := joinSpChars_getLast ts hne c hc
      exact not_pySpace_of_wordChar c (hword t ht c hct)
  show tokenizeChars (joinSpChars ts) = ts
  unfold tokenizeChars
  rw [h1, h2, h3]
  exact splitWordsAux_joinSpChars ts hne hword

/-- `tokenize` never yields an empty string, so its trailing filter is the
identity. -/
theorem tokenize_eq_map (line : String) :
    tokenize line = (tokenizeChars line.data).map (fun cs => String.mk cs) := by
  unfold tokenize
  rw [List.filter_eq_self]
  intro t ht
  obtain ⟨cs, hcs, rfl⟩ := List.mem_map.mp ht
  have hcne : cs ≠ [] := (tokenizeChars_token_props line.data cs hcs).1
  simp only [bne_iff_ne, ne_eq]
  intro he
  apply hcne
  have hdata := congrArg String.data he
  exact hdata

/-- The underlying characters of the space-join of `tokenize`. -/
theorem joinSpace_tokenize_data (s : String) :
    (joinSpace (tokenize s)).data = joinSpChars (tokenizeChars s.data) := by
  unfold joinSpace
  show joinSpChars ((tokenize s).map String.data) =
    joinSpChars (tokenizeChars s.data)
  congr 1
  rw [tokenize_eq_map, List.map_map]
  exact List.map_id _

/-- C9: the tokenizer is idempotent under re-tokenization — joining the
tokens of `tokenize s` with single spaces and tokenizing again yields
exactly the same token sequence. -/
theorem claim9_tokenize_idempotent (s : String) :
    tokenize (joinSpace (tokenize s)) = tokenize s := by
  rw [tokenize_eq_map (joinSpace (tokenize s)), joinSpace_tokenize_data,
    tokenizeChars_joinSpChars, ← tokenize_eq_map]
